import Mathlib

/-!
Verification of the `pyver` PEP-440 version library.

The development shallowly embeds the Rust sources:
  * `src/ids/*.rs`   — segment types and their comparisons,
  * `src/validator.rs` — the (pomsky-generated, unanchored) validation regex,
  * `src/lib.rs`     — `PackageVersion` (the crate root: derivative `PartialEq` /
                       `PartialOrd` ignoring `original` and `local`) and
                       `PackageVersion::new`,
  * `src/version.rs` — an uncompiled snapshot (not in the module tree) holding a
                       manual `PartialEq` and the only `Hash` impl; embedded
                       separately in namespace `VersionRs`.

Strings are modelled as `List Char`; the Rust `u32` is modelled as `Nat` with an
explicit `2 ^ 32` bound checked at the single conversion point (`parseU32`),
mirroring `str::parse::<u32>`.
-/

/-! ## Character classes of the regex (src/validator.rs) -/

/-- `['0'-'9']` in the pomsky pattern. -/
def isDigit (c : Char) : Bool := '0' ≤ c && c ≤ '9'

/-- `["-" "_" "."]` — the separator class of the pattern. -/
def isSep (c : Char) : Bool := c == '-' || c == '_' || c == '.'

/-- `['a'-'z' '0'-'9']` — the local-version character class. -/
def isLocalChar (c : Char) : Bool := ('a' ≤ c && c ≤ 'z') || isDigit c

/-! ## Numbers: Rust `u32` ordering and `str::parse::<u32>` -/

/-- Numeric value of a digit string (base 10), as `u32::from_str` computes it. -/
def natOfDigits (s : List Char) : Nat :=
  s.foldl (fun a c => 10 * a + (c.toNat - '0'.toNat)) 0

/-- `str::parse::<u32>`: fails on an empty string, a non-digit character, or a
value that does not fit in 32 bits; otherwise returns the numeric value. -/
def parseU32 (s : List Char) : Option Nat :=
  if s.isEmpty then none
  else if s.all isDigit then
    if natOfDigits s < 2 ^ 32 then some (natOfDigits s) else none
  else none

/-- Three-way comparison of `u32` values (Rust `Ord for u32`). -/
def u32Cmp (a b : Nat) : Ordering :=
  if a < b then .lt else if b < a then .gt else .eq

/-- Derived `Ord for Option<u32>`: `None` is below every `Some`. -/
def optNatCmp : Option Nat → Option Nat → Ordering
  | none, none => .eq
  | none, some _ => .lt
  | some _, none => .gt
  | some a, some b => u32Cmp a b

/-- Rust `<` on `Option<u32>` (used verbatim inside `Ord for PostHeader`). -/
def optNatLtB : Option Nat → Option Nat → Bool
  | none, none => false
  | none, some _ => true
  | some _, none => false
  | some a, some b => decide (a < b)

/-- Derived `Ord for Option<T>` lifted over a component comparison. -/
def optCmp (f : α → α → Ordering) : Option α → Option α → Ordering
  | none, none => .eq
  | none, some _ => .lt
  | some _, none => .gt
  | some a, some b => f a b

/-! ## Segment types (src/ids) -/

/-- `src/ids/release_id.rs`: `ReleaseHeader { major: u32, minor: u32 }`. -/
structure ReleaseHeader where
  major : Nat
  minor : Nat
deriving DecidableEq, Repr

/-- Derived `PartialOrd for ReleaseHeader`: lexicographic on `(major, minor)`
in field declaration order. -/
def ReleaseHeader.cmp (a b : ReleaseHeader) : Ordering :=
  (u32Cmp a.major b.major).then (u32Cmp a.minor b.minor)

/-- `src/ids/pre_id.rs`: `PreHeader`, variants in declaration order
`Beta, Alpha, Preview, ReleaseCandidate`. -/
inductive PreHeader where
  | Beta (n : Option Nat)
  | Alpha (n : Option Nat)
  | Preview (n : Option Nat)
  | ReleaseCandidate (n : Option Nat)
deriving DecidableEq, Repr

/-- Derived `PartialOrd for PreHeader`: discriminant (declaration order) first,
then the `Option<u32>` payload; written out case by case exactly as the derive
expands. -/
def PreHeader.cmp : PreHeader → PreHeader → Ordering
  | .Beta a, .Beta b => optNatCmp a b
  | .Beta _, _ => .lt
  | .Alpha _, .Beta _ => .gt
  | .Alpha a, .Alpha b => optNatCmp a b
  | .Alpha _, _ => .lt
  | .Preview _, .Beta _ => .gt
  | .Preview _, .Alpha _ => .gt
  | .Preview a, .Preview b => optNatCmp a b
  | .Preview _, _ => .lt
  | .ReleaseCandidate a, .ReleaseCandidate b => optNatCmp a b
  | .ReleaseCandidate _, _ => .gt

/-- Discriminant of a `PreHeader` (the rank the derived ordering compares
first): `Beta = 0, Alpha = 1, Preview = 2, ReleaseCandidate = 3`. -/
def PreHeader.rank : PreHeader → Nat
  | .Beta _ => 0
  | .Alpha _ => 1
  | .Preview _ => 2
  | .ReleaseCandidate _ => 3

/-- The optional numeric suffix carried by a `PreHeader`. -/
def PreHeader.num : PreHeader → Option Nat
  | .Beta n => n
  | .Alpha n => n
  | .Preview n => n
  | .ReleaseCandidate n => n

/-- `src/ids/post_id.rs`: `PostHead` (`Post` | `Rev`). -/
inductive PostHead where
  | Post
  | Rev
deriving DecidableEq, Repr

/-- `Ord for PostHead` (src/ids/post_id.rs): always `Equal`. -/
def PostHead.cmp (_ _ : PostHead) : Ordering := .eq

/-- `src/ids/post_id.rs`: `PostHeader { post_head, post_num }`. -/
structure PostHeader where
  post_head : Option PostHead
  post_num : Option Nat
deriving DecidableEq, Repr

/-- `Ord for PostHeader` (src/ids/post_id.rs lines 73-91), transliterated:
equal numbers are `Equal`; a missing number is below a present one; otherwise
the numbers decide via `Option<u32>`'s `<`. -/
def PostHeader.cmp (a b : PostHeader) : Ordering :=
  if a.post_num = b.post_num then .eq
  else if a.post_num.isNone && b.post_num.isSome then .lt
  else if a.post_num.isSome && b.post_num.isNone then .gt
  else if optNatLtB a.post_num b.post_num then .lt
  else .gt

/-- `src/ids/dev_id.rs`: `DevHead { dev_num: Option<u32> }`. -/
structure DevHead where
  dev_num : Option Nat
deriving DecidableEq, Repr

/-- Derived `Ord for DevHead`: comparison of the single field. -/
def DevHead.cmp (a b : DevHead) : Ordering :=
  optNatCmp a.dev_num b.dev_num

/-! ## The validation regex (src/validator.rs)

The pomsky pattern compiles to an **unanchored** regex searched with
`Regex::captures`, i.e. leftmost-first (Perl-style) semantics: the match starts
at the earliest possible position; at that position greedy repetition and
first-alternative preference decide the captures.  Every group after `release`
is optional, so once `release` has matched the remainder of the pattern cannot
fail; the functions below therefore implement the preference-first path
directly, keeping the only backtracking points that can fire (the optional
leading `v`, the optional `epoch` group, and the optional separator before a
keyword). -/

/-- The named capture groups of the regex.  Groups whose text the library never
reads (`pre`, `post`, `dev`, `dev_l`) are recorded as presence booleans. -/
structure Captures where
  epoch : Option (List Char)
  release : Option (List Char)
  pre : Bool
  pre_l : Option (List Char)
  pre_n : Option (List Char)
  post : Bool
  post_l : Option (List Char)
  post_n1 : Option (List Char)
  post_n2 : Option (List Char)
  dev : Bool
  dev_n : Option (List Char)
  localVer : Option (List Char)
deriving DecidableEq, Repr

/-- The `pre_l` alternation, in the pattern's preference order:
`"preview"|"alpha"|"beta"|"pre"|"rc"|"a"|"b"|"c"`. -/
def preKws : List (List Char) :=
  ["preview".toList, "alpha".toList, "beta".toList, "pre".toList,
   "rc".toList, "a".toList, "b".toList, "c".toList]

/-- The `post_l` alternation: `"post" | "rev" | "r"`. -/
def postKws : List (List Char) := ["post".toList, "rev".toList, "r".toList]

/-- The `dev_l` group: the single keyword `"dev"`. -/
def devKws : List (List Char) := ["dev".toList]

/-- First keyword of the list that is a prefix of `s` (regex alternation is
leftmost-first); returns the keyword and the remaining input. -/
def matchKw : List (List Char) → List Char → Option (List Char × List Char)
  | [], _ => none
  | kw :: kws, s =>
    if kw.isPrefixOf s then some (kw, s.drop kw.length) else matchKw kws s

/-- The trailing `["-" "_" "."]? (['0'-'9']+)?` of the `pre`, `post` (keyword
branch) and `dev` groups.  Both parts are greedy: a leading separator is
consumed if present (nothing after it can fail), then a maximal digit run is
captured if one starts there. -/
def sepNumAfter (s' : List Char) : Option (List Char) × List Char :=
  let run := s'.takeWhile isDigit
  if run.isEmpty then (none, s') else (some run, s'.dropWhile isDigit)

/-- See `sepNumAfter`: the optional leading separator is consumed first. -/
def sepNum (s : List Char) : Option (List Char) × List Char :=
  match s with
  | c :: r => if isSep c then sepNumAfter r else sepNumAfter (c :: r)
  | [] => sepNumAfter []

/-- A group of shape `["-" "_" "."]? KW ["-" "_" "."]? (['0'-'9']+)?` (the
`pre` group, the keyword branch of `post`, and the `dev` group).  The leading
separator is tried greedily; if the keyword then fails, the engine backtracks
and retries the keyword without consuming the separator (this retry can never
succeed — no keyword starts with a separator — but it is kept for fidelity). -/
def kwTail (kws : List (List Char)) (s : List Char) :
    Option (List Char × Option (List Char) × List Char) :=
  match matchKw kws s with
  | some (kw, r') => some (kw, (sepNum r').1, (sepNum r').2)
  | none => none

/-- See `kwTail`: the keyword (and what follows) after the optional leading
separator, which is consumed greedily; if the keyword then fails, the engine
backtracks and retries without consuming the separator (the retry can never
succeed — no keyword starts with a separator — but it is kept for fidelity). -/
def kwGroup (kws : List (List Char)) (s : List Char) :
    Option (List Char × Option (List Char) × List Char) :=
  match s with
  | c :: r =>
    if isSep c then
      match kwTail kws r with
      | some g => some g
      | none => kwTail kws (c :: r)
    else kwTail kws (c :: r)
  | [] => kwTail kws []

/-- The `post` group: the bare-hyphen branch `"-" post_n1(['0'-'9']+)` is tried
first (alternation order), then the keyword branch.  Returns
`(post_l, post_n1, post_n2, rest)`. -/
def postKwForm (s : List Char) :
    Option (Option (List Char) × Option (List Char) × Option (List Char) × List Char) :=
  match kwGroup postKws s with
  | some (kw, n, rest) => some (some kw, none, n, rest)
  | none => none

/-- See `postKwForm`: the whole `post` group, trying the bare-hyphen branch
`"-" post_n1(['0'-'9']+)` first (alternation order), then the keyword form. -/
def postGroup (s : List Char) :
    Option (Option (List Char) × Option (List Char) × Option (List Char) × List Char) :=
  match s with
  | c :: r =>
    if c = '-' then
      let run := r.takeWhile isDigit
      if run.isEmpty then postKwForm (c :: r)
      else some (none, some run, none, r.dropWhile isDigit)
    else postKwForm (c :: r)
  | [] => postKwForm []

/-- The greedy `("." ['0'-'9']+)*` tail of the `release` group, with explicit
fuel (each iteration consumes at least two characters, so `r.length` fuel
suffices).  Returns the consumed text and the remaining input. -/
def releaseTailF : Nat → List Char → List Char × List Char
  | 0, r => ([], r)
  | fuel + 1, r =>
    match r with
    | c :: r1 =>
      if c = '.' then
        let run := r1.takeWhile isDigit
        if run.isEmpty then ([], c :: r1)
        else
          let p := releaseTailF fuel (r1.dropWhile isDigit)
          ('.' :: run ++ p.1, p.2)
      else ([], c :: r1)
    | [] => ([], [])

/-- The `release` capture built from its leading digit run and the input after
it: the greedy dot-separated tail is appended. -/
def releaseFrom (run : List Char) (rest : List Char) : List Char × List Char :=
  let p := releaseTailF rest.length rest
  (run ++ p.1, p.2)

/-- The greedy `((["-" "_" "."] ['a'-'z' '0'-'9']+)+)?` tail of the `local`
group, with fuel as in `releaseTailF`. -/
def localTailF : Nat → List Char → List Char
  | 0, _ => []
  | fuel + 1, s =>
    match s with
    | c :: r =>
      if isSep c then
        let run := r.takeWhile isLocalChar
        if run.isEmpty then []
        else c :: run ++ localTailF fuel (r.dropWhile isLocalChar)
      else []
    | [] => []

/-- The local-version group `"+" local(['a'-'z' '0'-'9']+ (...)?)`: the capture
excludes the `+`.  If no local token follows the `+`, the optional group as a
whole is skipped. -/
def localGroup : List Char → Option (List Char)
  | c :: r =>
    if c = '+' then
      let run := r.takeWhile isLocalChar
      if run.isEmpty then none
      else some (run ++ localTailF r.length (r.dropWhile isLocalChar))
    else none
  | [] => none

/-- Last stage of a match: the optional `dev` group, then the optional
`local` group on whatever remains. -/
def finishDev (epoch : Option (List Char)) (rel : List Char) (preB : Bool)
    (preL preN : Option (List Char)) (postB : Bool)
    (postL postN1 postN2 : Option (List Char)) (r2 : List Char) : Captures :=
  match kwGroup devKws r2 with
  | some (_, n, rest) =>
    { epoch := epoch, release := some rel
      pre := preB, pre_l := preL, pre_n := preN
      post := postB, post_l := postL, post_n1 := postN1, post_n2 := postN2
      dev := true, dev_n := n, localVer := localGroup rest }
  | none =>
    { epoch := epoch, release := some rel
      pre := preB, pre_l := preL, pre_n := preN
      post := postB, post_l := postL, post_n1 := postN1, post_n2 := postN2
      dev := false, dev_n := none, localVer := localGroup r2 }

/-- The optional `post` group, then the rest of the match. -/
def finishPost (epoch : Option (List Char)) (rel : List Char) (preB : Bool)
    (preL preN : Option (List Char)) (r1 : List Char) : Captures :=
  match postGroup r1 with
  | some (l, n1, n2, rest) =>
    finishDev epoch rel preB preL preN true l n1 n2 rest
  | none => finishDev epoch rel preB preL preN false none none none r1

/-- Runs the optional trailing groups (`pre`, `post`, `dev`, `local`) after the
`release` group and assembles the capture set. -/
def finish (epoch : Option (List Char)) (rel : List Char) (r0 : List Char) :
    Captures :=
  match kwGroup preKws r0 with
  | some (kw, n, rest) => finishPost epoch rel true (some kw) n rest
  | none => finishPost epoch rel false none none r0

/-- Match of the pattern after the optional leading `v`: the optional
`epoch(['0'-'9']+) "!"` group (committed only when a digit follows the `!`,
since otherwise the mandatory `release` fails and the engine falls back to
skipping the optional epoch), then the mandatory `release`, then the optional
trailing groups.  Fails exactly when no digit starts the input. -/
def matchCore (s : List Char) : Option Captures :=
  let ds := s.takeWhile isDigit
  let rest := s.dropWhile isDigit
  if ds.isEmpty then none
  else
    match rest with
    | c :: r2 =>
      if c = '!' then
        let ds2 := r2.takeWhile isDigit
        if ds2.isEmpty then
          let p := releaseFrom ds rest
          some (finish none p.1 p.2)
        else
          let p := releaseFrom ds2 (r2.dropWhile isDigit)
          some (finish (some ds) p.1 p.2)
      else
        let p := releaseFrom ds rest
        some (finish none p.1 p.2)
    | [] =>
      let p := releaseFrom ds rest
      some (finish none p.1 p.2)

/-- Match of the whole pattern at one starting position: the leading `"v"?` is
consumed greedily; if the rest fails the engine retries without it (the retry
is kept for fidelity though it can never succeed, `'v'` not being a digit). -/
def matchAt (s : List Char) : Option Captures :=
  match s with
  | c :: r =>
    if c = 'v' then
      match matchCore r with
      | some caps => some caps
      | none => matchCore (c :: r)
    else matchCore (c :: r)
  | [] => matchCore []

/-- `Regex::captures` on the unanchored pattern: the leftmost position at which
the pattern matches wins. -/
def findMatch : List Char → Option Captures
  | [] => matchAt []
  | c :: t =>
    match matchAt (c :: t) with
    | some caps => some caps
    | none => findMatch t

/-! ## Errors and `validate_440_version` (src/validator.rs, src/lib.rs) -/

/-- The `anyhow` errors `PackageVersion::new` can return.  Both grammar-level
bails carry the original input (`"Failed to decode version {}"`). -/
inductive ParseError where
  /-- `validate_440_version`: the regex finds no match in the input. -/
  | grammarMismatch (input : List Char)
  /-- `new`: the mandatory `release` capture is absent (dead in practice). -/
  | releaseMissing (input : List Char)
  /-- A propagated `ParseIntError` from `str::parse::<u32>`. -/
  | intError
deriving DecidableEq, Repr

/-- Outcomes of `new`: an `anyhow` error, or a panic (`unwrap` / out-of-bounds
indexing), or success. -/
inductive NErr where
  | err (e : ParseError)
  | panicked
deriving DecidableEq, Repr

/-- `validate_440_version` (src/validator.rs lines 18-35). -/
def validate_440_version (version : List Char) : Except ParseError Captures :=
  match findMatch version with
  | some v => .ok v
  | none => .error (.grammarMismatch version)

/-! ## `PackageVersion` (src/lib.rs lines 32-67) -/

/-- The composite version, fields in the struct's declaration order. -/
structure PackageVersion where
  original : List Char
  localVer : Option (List Char)
  dev : Option DevHead
  post : Option PostHeader
  pre : Option PreHeader
  release : ReleaseHeader
  epoch : Option Nat
deriving DecidableEq, Repr

/-- Rust `str::split('.')`: splits on every occurrence of the separator,
keeping empty pieces; the result is never empty. -/
def splitOnChar (sep : Char) : List Char → List (List Char)
  | [] => [[]]
  | c :: r =>
    if c = sep then [] :: splitOnChar sep r
    else
      match splitOnChar sep r with
      | [] => [[c]]
      | p :: ps => (c :: p) :: ps

/-- The `epoch` conversion in `new`: `Some(v) => Some(v.parse::<u32>()?)`. -/
def convEpoch (m : Captures) : Except NErr (Option Nat) :=
  match m.epoch with
  | some v =>
    match parseU32 v with
    | some n => .ok (some n)
    | none => .error (.err .intError)
  | none => .ok none

/-- The `release` conversion in `new`: split on `'.'` when a dot is present and
parse the first two pieces (indexing out of bounds would panic), otherwise
parse the whole capture with `minor = 0`; a missing capture bails. -/
def convRelease (version : List Char) (m : Captures) :
    Except NErr ReleaseHeader :=
  match m.release with
  | some v =>
    if v.contains '.' then
      let split := splitOnChar '.' v
      match split.get? 0 with
      | none => .error .panicked
      | some s0 =>
        match parseU32 s0 with
        | none => .error (.err .intError)
        | some major =>
          match split.get? 1 with
          | none => .error .panicked
          | some s1 =>
            match parseU32 s1 with
            | none => .error (.err .intError)
            | some minor => .ok { major := major, minor := minor }
    else
      match parseU32 v with
      | none => .error (.err .intError)
      | some major => .ok { major := major, minor := 0 }
  | none => .error (.err (.releaseMissing version))

/-- The `pre` conversion in `new`: when the `pre` group matched, parse the
optional `pre_n`, `unwrap()` the `pre_l` capture (a panic if absent) and fold
the keyword into its variant; an unknown keyword yields `None`. -/
def convPre (m : Captures) : Except NErr (Option PreHeader) :=
  match m.pre with
  | true =>
    let preN : Except NErr (Option Nat) :=
      match m.pre_n with
      | some v =>
        match parseU32 v with
        | some n => .ok (some n)
        | none => .error (.err .intError)
      | none => .ok none
    match preN with
    | .error e => .error e
    | .ok pre_n =>
      match m.pre_l with
      | none => .error .panicked
      | some kw =>
        if kw = "alpha".toList then .ok (some (.Alpha pre_n))
        else if kw = "a".toList then .ok (some (.Alpha pre_n))
        else if kw = "beta".toList then .ok (some (.Beta pre_n))
        else if kw = "b".toList then .ok (some (.Beta pre_n))
        else if kw = "rc".toList then .ok (some (.ReleaseCandidate pre_n))
        else if kw = "c".toList then .ok (some (.ReleaseCandidate pre_n))
        else if kw = "preview".toList then .ok (some (.Preview pre_n))
        else if kw = "pre".toList then .ok (some (.Preview pre_n))
        else .ok none
  | false => .ok none

/-- The `post` conversion in `new`: `post_n1` is tried before `post_n2`; the
keyword, when captured, folds into `PostHead` (`"post"` to `Post`, `"rev"` and
`"r"` to `Rev`). -/
def convPost (m : Captures) : Except NErr (Option PostHeader) :=
  match m.post with
  | true =>
    let postNum : Except NErr (Option Nat) :=
      match m.post_n1 with
      | some v =>
        match parseU32 v with
        | some n => .ok (some n)
        | none => .error (.err .intError)
      | none =>
        match m.post_n2 with
        | some v =>
          match parseU32 v with
          | some n => .ok (some n)
          | none => .error (.err .intError)
        | none => .ok none
    match postNum with
    | .error e => .error e
    | .ok post_num =>
      let post_head : Option PostHead :=
        match m.post_l with
        | some v =>
          if v = "post".toList then some .Post
          else if v = "rev".toList then some .Rev
          else if v = "r".toList then some .Rev
          else none
        | none => none
      .ok (some { post_head := post_head, post_num := post_num })
  | false => .ok none

/-- The `dev` conversion in `new`. -/
def convDev (m : Captures) : Except NErr (Option DevHead) :=
  match m.dev with
  | true =>
    match m.dev_n with
    | some v =>
      match parseU32 v with
      | some n => .ok (some { dev_num := some n })
      | none => .error (.err .intError)
    | none => .ok (some { dev_num := none })
  | false => .ok none

/-- Body of `PackageVersion::new` after a successful `validate_440_version`:
the field conversions run in source order, the first error aborting. -/
def buildVersion (version : List Char) (m : Captures) :
    Except NErr PackageVersion :=
  match convEpoch m with
  | .error e => .error e
  | .ok epoch =>
    match convRelease version m with
    | .error e => .error e
    | .ok release =>
      match convPre m with
      | .error e => .error e
      | .ok pre =>
        match convPost m with
        | .error e => .error e
        | .ok post =>
          match convDev m with
          | .error e => .error e
          | .ok dev =>
            .ok { original := version
                  localVer := m.localVer
                  dev := dev, post := post, pre := pre
                  release := release, epoch := epoch }

/-- `PackageVersion::new` (src/lib.rs lines 70-177). -/
def PackageVersion.new (version : List Char) : Except NErr PackageVersion :=
  match validate_440_version version with
  | .error e => .error (.err e)
  | .ok version_match => buildVersion version version_match

/-! ## Equality and ordering of the composite (src/lib.rs)

`#[derivative(PartialOrd, PartialEq)]` with `original` and `local` ignored:
both derive field-wise over the remaining fields in declaration order
`dev, post, pre, release, epoch`. -/

/-- Derivative `PartialEq for PackageVersion` (src/lib.rs): field-wise equality
of `dev, post, pre, release, epoch`; `original` and `local` are ignored. -/
def PackageVersion.beq (a b : PackageVersion) : Bool :=
  a.dev == b.dev && a.post == b.post && a.pre == b.pre &&
    a.release == b.release && a.epoch == b.epoch

/-- Derivative `PartialOrd for PackageVersion` (src/lib.rs): lexicographic over
`dev, post, pre, release, epoch` in declaration order, each field compared with
its own ordering (`None` below `Some` for the optional ones).  Every component
comparison is total, so the Rust `partial_cmp` is `Some` of this value. -/
def PackageVersion.cmp (a b : PackageVersion) : Ordering :=
  ((optCmp DevHead.cmp a.dev b.dev).then
    ((optCmp PostHeader.cmp a.post b.post).then
      ((optCmp PreHeader.cmp a.pre b.pre).then
        ((ReleaseHeader.cmp a.release b.release).then
          (optNatCmp a.epoch b.epoch)))))

/-! ## The src/version.rs snapshot

`src/version.rs` is not declared in the crate root's module tree, but it is
the only place a `Hash` impl (and a manual `PartialEq`) for `PackageVersion`
exists; both are embedded here.  Its `PartialEq` (lines 177-186) compares
`release, local, dev, epoch, post, pre`; its `Hash` (lines 190-200) feeds the
hasher exactly those six fields in the written order. -/

namespace VersionRs

/-- Manual `PartialEq for PackageVersion` in src/version.rs: note that `local`
IS compared, unlike the derivative equality of src/lib.rs. -/
def eq (a b : PackageVersion) : Bool :=
  a.release == b.release && a.localVer == b.localVer && a.dev == b.dev &&
    a.epoch == b.epoch && a.post == b.post && a.pre == b.pre

/-- The stream of data `Hash for PackageVersion` (src/version.rs) writes to
the hasher, in source order: `release, local, dev, epoch, post, pre`.  The
resulting `u64` is a function of exactly these fields. -/
structure HashInput where
  release : ReleaseHeader
  localVer : Option (List Char)
  dev : Option DevHead
  epoch : Option Nat
  post : Option PostHeader
  pre : Option PreHeader
deriving DecidableEq, Repr

/-- The hasher input produced by `Hash for PackageVersion` (src/version.rs
lines 190-200). -/
def hashFields (a : PackageVersion) : HashInput :=
  { release := a.release, localVer := a.localVer, dev := a.dev
    epoch := a.epoch, post := a.post, pre := a.pre }

end VersionRs

/-! ## Helpers for concrete evaluation of parsed inputs -/

/-- Successful parse, if any. -/
def parseVer (s : List Char) : Option PackageVersion :=
  match PackageVersion.new s with
  | .ok v => some v
  | .error _ => none

/-- Whether `new` succeeded. -/
def isOk (r : Except NErr PackageVersion) : Bool :=
  match r with
  | .ok _ => true
  | .error _ => false

/-- Whether `new` ended in a modelled panic. -/
def isPanic (r : Except NErr PackageVersion) : Bool :=
  match r with
  | .error .panicked => true
  | _ => false

/-- Both inputs parse and the results are `==` under the src/lib.rs
(derivative) equality. -/
def okEqLib (s₁ s₂ : List Char) : Bool :=
  match parseVer s₁, parseVer s₂ with
  | some a, some b => PackageVersion.beq a b
  | _, _ => false

/-- Comparison of two parsed inputs under the src/lib.rs ordering. -/
def okCmp (s₁ s₂ : List Char) : Option Ordering :=
  match parseVer s₁, parseVer s₂ with
  | some a, some b => some (PackageVersion.cmp a b)
  | _, _ => none

/-- Comparison of the release segments of two parsed inputs. -/
def okRelCmp (s₁ s₂ : List Char) : Option Ordering :=
  match parseVer s₁, parseVer s₂ with
  | some a, some b => some (ReleaseHeader.cmp a.release b.release)
  | _, _ => none

/-- The epoch of a parsed input. -/
def okEpoch (s : List Char) : Option (Option Nat) :=
  (parseVer s).map (·.epoch)

/-- The pre-release segment of a parsed input. -/
def preOf (s : List Char) : Option (Option PreHeader) :=
  (parseVer s).map (·.pre)

/-- Both inputs parse and agree on the five fields named by the equality
contract: `epoch, release, pre, post, dev`. -/
def agreeFive (s₁ s₂ : List Char) : Bool :=
  match parseVer s₁, parseVer s₂ with
  | some a, some b =>
    a.epoch == b.epoch && a.release == b.release && a.pre == b.pre &&
      a.post == b.post && a.dev == b.dev
  | _, _ => false

/-- Both inputs parse and are `==` under the src/version.rs manual equality. -/
def okEqV (s₁ s₂ : List Char) : Bool :=
  match parseVer s₁, parseVer s₂ with
  | some a, some b => VersionRs.eq a b
  | _, _ => false

/-- Both inputs parse and their src/version.rs hash inputs coincide. -/
def okHashEqV (s₁ s₂ : List Char) : Bool :=
  match parseVer s₁, parseVer s₂ with
  | some a, some b => decide (VersionRs.hashFields a = VersionRs.hashFields b)
  | _, _ => false

/-! ## Predicates used by the parse-error characterization -/

/-- A captured digit run: nonempty and all digits. -/
def goodRun (v : List Char) : Prop := v ≠ [] ∧ v.all isDigit = true

/-- `dotRuns [p₁, …, pₖ]` is `"." ++ p₁ ++ … ++ "." ++ pₖ` — the shape of the
text consumed by the `("." ['0'-'9']+)*` tail of the `release` group. -/
def dotRuns : List (List Char) → List Char
  | [] => []
  | p :: ps => '.' :: p ++ dotRuns ps

/-- Shape of a `release` capture: a digit run followed by dot-separated digit
runs. -/
def goodRelease (rel : List Char) : Prop :=
  ∃ ds ps, rel = ds ++ dotRuns ps ∧ goodRun ds ∧ ∀ p ∈ ps, goodRun p

/-- Invariants of every capture set the regex can produce: the numeric
captures are digit runs, `release` is present and well-shaped, and a matched
`pre` group always carries a `pre_l` keyword from the alternation. -/
def CapturesInv (m : Captures) : Prop :=
  (∀ v, m.epoch = some v → goodRun v) ∧
  (∃ rel, m.release = some rel ∧ goodRelease rel) ∧
  (m.pre = true → ∃ kw, m.pre_l = some kw ∧ kw ∈ preKws) ∧
  (m.pre_l = none ∨ ∃ kw, m.pre_l = some kw ∧ kw ∈ preKws) ∧
  (∀ v, m.pre_n = some v → goodRun v) ∧
  (∀ v, m.post_n1 = some v → goodRun v) ∧
  (∀ v, m.post_n2 = some v → goodRun v) ∧
  (∀ v, m.dev_n = some v → goodRun v)

/-- The epoch conversion fails (`u32` overflow on the captured run). -/
def epochOver (m : Captures) : Bool :=
  match m.epoch with
  | some v => (parseU32 v).isNone
  | none => false

/-- The release conversion fails on one of the (at most two) pieces the code
parses. -/
def relOver (m : Captures) : Bool :=
  match m.release with
  | some rel =>
    if rel.contains '.' then
      (match (splitOnChar '.' rel).get? 0 with
       | some p => (parseU32 p).isNone
       | none => false) ||
      (match (splitOnChar '.' rel).get? 1 with
       | some p => (parseU32 p).isNone
       | none => false)
    else (parseU32 rel).isNone
  | none => false

/-- The pre-release numeric conversion fails. -/
def preOver (m : Captures) : Bool :=
  match m.pre with
  | true =>
    match m.pre_n with
    | some v => (parseU32 v).isNone
    | none => false
  | false => false

/-- The post-release numeric conversion fails (`post_n1` tried first). -/
def postOver (m : Captures) : Bool :=
  match m.post with
  | true =>
    match m.post_n1 with
    | some v => (parseU32 v).isNone
    | none =>
      match m.post_n2 with
      | some v => (parseU32 v).isNone
      | none => false
  | false => false

/-- The dev numeric conversion fails. -/
def devOver (m : Captures) : Bool :=
  match m.dev with
  | true =>
    match m.dev_n with
    | some v => (parseU32 v).isNone
    | none => false
  | false => false

/-- Some digit run converted by `PackageVersion::new` does not fit in `u32`. -/
def overflows (m : Captures) : Bool :=
  epochOver m || relOver m || preOver m || postOver m || devOver m

/-- The digit runs `PackageVersion::new` feeds to `str::parse::<u32>` for a
given capture set, in conversion order. -/
def convertedRuns (m : Captures) : List (List Char) :=
  (match m.epoch with | some v => [v] | none => []) ++
  (match m.release with
   | some rel =>
     if rel.contains '.' then (splitOnChar '.' rel).take 2 else [rel]
   | none => []) ++
  (match m.pre with
   | true => match m.pre_n with | some v => [v] | none => []
   | false => []) ++
  (match m.post with
   | true =>
     match m.post_n1 with
     | some v => [v]
     | none => match m.post_n2 with | some v => [v] | none => []
   | false => []) ++
  (match m.dev with
   | true => match m.dev_n with | some v => [v] | none => []
   | false => [])

/-! # Theorems -/

/-! ## Ordering helper lemmas -/

theorem u32Cmp_self (a : Nat) : u32Cmp a a = .eq := by
  simp [u32Cmp]

theorem u32Cmp_eq_iff {a b : Nat} : u32Cmp a b = .eq ↔ a = b := by
  unfold u32Cmp
  split_ifs <;> simp <;> omega

theorem u32Cmp_lt_iff {a b : Nat} : u32Cmp a b = .lt ↔ a < b := by
  unfold u32Cmp
  split_ifs <;> simp <;> omega

theorem u32Cmp_gt_iff {a b : Nat} : u32Cmp a b = .gt ↔ b < a := by
  unfold u32Cmp
  split_ifs <;> simp <;> omega

theorem optNatCmp_self (a : Option Nat) : optNatCmp a a = .eq := by
  cases a <;> simp [optNatCmp, u32Cmp_self]

theorem optNatCmp_eq_iff {a b : Option Nat} :
    optNatCmp a b = .eq ↔ a = b := by
  cases a <;> cases b <;> simp [optNatCmp, u32Cmp_eq_iff]

theorem optNatCmp_le_trans {a b c : Option Nat} (h₁ : optNatCmp a b ≠ .gt)
    (h₂ : optNatCmp b c ≠ .gt) : optNatCmp a c ≠ .gt := by
  cases a <;> cases b <;> cases c <;>
    simp_all [optNatCmp, u32Cmp_gt_iff] <;> omega

theorem then_of_ne_eq {o p : Ordering} (h : o ≠ .eq) : o.then p = o := by
  cases o <;> simp_all [Ordering.then]

theorem then_eq_eq_iff {o p : Ordering} :
    o.then p = .eq ↔ o = .eq ∧ p = .eq := by
  cases o <;> simp [Ordering.then]

theorem then_ne_gt_iff {o p : Ordering} :
    o.then p ≠ .gt ↔ o = .lt ∨ (o = .eq ∧ p ≠ .gt) := by
  cases o <;> simp [Ordering.then]

/-! ## Segment comparison lemmas -/

theorem releaseCmp_self (a : ReleaseHeader) : a.cmp a = .eq := by
  simp [ReleaseHeader.cmp, u32Cmp_self, Ordering.then]

theorem releaseCmp_eq_iff {a b : ReleaseHeader} :
    a.cmp b = .eq ↔ a = b := by
  rcases a with ⟨am, an⟩
  rcases b with ⟨bm, bn⟩
  simp [ReleaseHeader.cmp, then_eq_eq_iff, u32Cmp_eq_iff]

theorem releaseCmp_le_iff {a b : ReleaseHeader} :
    a.cmp b ≠ .gt ↔
      a.major < b.major ∨ (a.major = b.major ∧ a.minor ≤ b.minor) := by
  rcases a with ⟨am, an⟩
  rcases b with ⟨bm, bn⟩
  simp only [ReleaseHeader.cmp, then_ne_gt_iff, u32Cmp_eq_iff, u32Cmp_lt_iff,
    ne_eq, u32Cmp_gt_iff]
  omega

theorem releaseCmp_le_trans {a b c : ReleaseHeader} (h₁ : a.cmp b ≠ .gt)
    (h₂ : b.cmp c ≠ .gt) : a.cmp c ≠ .gt := by
  rw [releaseCmp_le_iff] at h₁ h₂ ⊢
  omega

theorem preCmp_form (a b : PreHeader) :
    a.cmp b = (u32Cmp a.rank b.rank).then (optNatCmp a.num b.num) := by
  cases a <;> cases b <;> rfl

theorem preCmp_self (a : PreHeader) : a.cmp a = .eq := by
  rw [preCmp_form]
  simp [u32Cmp_self, optNatCmp_self, Ordering.then]

theorem preCmp_eq_iff {a b : PreHeader} :
    a.cmp b = .eq ↔ a.rank = b.rank ∧ a.num = b.num := by
  rw [preCmp_form, then_eq_eq_iff, u32Cmp_eq_iff, optNatCmp_eq_iff]

theorem pre_rank_num_ext {a b : PreHeader} (h₁ : a.rank = b.rank)
    (h₂ : a.num = b.num) : a = b := by
  cases a <;> cases b <;>
    simp_all [PreHeader.rank, PreHeader.num]

theorem preCmp_le_trans {a b c : PreHeader} (h₁ : a.cmp b ≠ .gt)
    (h₂ : b.cmp c ≠ .gt) : a.cmp c ≠ .gt := by
  rw [preCmp_form, then_ne_gt_iff, u32Cmp_eq_iff, u32Cmp_lt_iff] at h₁ h₂ ⊢
  rcases h₁ with h₁ | ⟨h₁, h₁'⟩ <;> rcases h₂ with h₂ | ⟨h₂, h₂'⟩
  · exact Or.inl (by omega)
  · exact Or.inl (by omega)
  · exact Or.inl (by omega)
  · exact Or.inr ⟨by omega, optNatCmp_le_trans h₁' h₂'⟩

theorem postCmp_eq_optNatCmp (a b : PostHeader) :
    a.cmp b = optNatCmp a.post_num b.post_num := by
  rcases a with ⟨ah, an⟩
  rcases b with ⟨bh, bn⟩
  cases an <;> cases bn <;>
    simp_all [PostHeader.cmp, optNatCmp, optNatLtB, u32Cmp] <;>
    split_ifs <;> simp_all <;> omega

theorem postCmp_self (a : PostHeader) : a.cmp a = .eq := by
  rw [postCmp_eq_optNatCmp, optNatCmp_self]

theorem postCmp_eq_iff {a b : PostHeader} :
    a.cmp b = .eq ↔ a.post_num = b.post_num := by
  rw [postCmp_eq_optNatCmp, optNatCmp_eq_iff]

theorem postCmp_le_trans {a b c : PostHeader} (h₁ : a.cmp b ≠ .gt)
    (h₂ : b.cmp c ≠ .gt) : a.cmp c ≠ .gt := by
  rw [postCmp_eq_optNatCmp] at h₁ h₂ ⊢
  exact optNatCmp_le_trans h₁ h₂

theorem devCmp_self (a : DevHead) : a.cmp a = .eq := by
  simp [DevHead.cmp, optNatCmp_self]

theorem devCmp_eq_iff {a b : DevHead} : a.cmp b = .eq ↔ a = b := by
  rcases a with ⟨an⟩
  rcases b with ⟨bn⟩
  simp [DevHead.cmp, optNatCmp_eq_iff]

theorem devCmp_le_trans {a b c : DevHead} (h₁ : a.cmp b ≠ .gt)
    (h₂ : b.cmp c ≠ .gt) : a.cmp c ≠ .gt := by
  exact optNatCmp_le_trans h₁ h₂

theorem optCmp_self {f : α → α → Ordering} (hf : ∀ x, f x x = .eq)
    (a : Option α) : optCmp f a a = .eq := by
  cases a <;> simp [optCmp, hf]

/-! ## Composite equality and ordering lemmas (src/lib.rs) -/

theorem then_eq_left (p : Ordering) : Ordering.eq.then p = p := rfl

theorem pv_beq_iff {a b : PackageVersion} :
    PackageVersion.beq a b = true ↔
      a.dev = b.dev ∧ a.post = b.post ∧ a.pre = b.pre ∧
        a.release = b.release ∧ a.epoch = b.epoch := by
  simp [PackageVersion.beq, and_assoc]

theorem pvCmp_eq_of_beq {a b : PackageVersion}
    (h : PackageVersion.beq a b = true) : PackageVersion.cmp a b = .eq := by
  obtain ⟨h₁, h₂, h₃, h₄, h₅⟩ := pv_beq_iff.mp h
  rw [PackageVersion.cmp, h₁, h₂, h₃, h₄, h₅]
  rw [optCmp_self (fun x => devCmp_self x), then_eq_left,
    optCmp_self (fun x => postCmp_self x), then_eq_left,
    optCmp_self (fun x => preCmp_self x), then_eq_left,
    releaseCmp_self, then_eq_left, optNatCmp_self]

/-! ## Claim C2 — composite ordering -/

/-- C2, counterexample.  The claim says that for parsed versions with
different release segments, `a < b` holds exactly when `a.release < b.release`.
For `a = parse "1.0.dev1"` and `b = parse "2.0"` the releases differ with
`a.release < b.release`, yet the composite comparator yields `a > b`, because
the derivative `PartialOrd` compares the `dev` field first. -/
theorem C2_cex :
    okCmp "1.0.dev1".toList "2.0".toList = some .gt ∧
      okRelCmp "1.0.dev1".toList "2.0".toList = some .lt := by
  exact ⟨rfl, rfl⟩

/-- C2, amended: the composite comparator is lexicographic over
`(dev, post, pre, release, epoch)` in struct declaration order, so `dev` — not
`release` — is the primary sort key; `release` decides only when the `dev`,
`post` and `pre` comparisons are all equal.  The comparator is consistent with
the composite equality: `a == b` implies the comparison is `Equal`. -/
theorem C2_composite_order :
    ∀ a b : PackageVersion,
      (optCmp DevHead.cmp a.dev b.dev ≠ .eq →
        PackageVersion.cmp a b = optCmp DevHead.cmp a.dev b.dev) ∧
      (optCmp DevHead.cmp a.dev b.dev = .eq →
        optCmp PostHeader.cmp a.post b.post = .eq →
        optCmp PreHeader.cmp a.pre b.pre = .eq →
        PackageVersion.cmp a b =
          (ReleaseHeader.cmp a.release b.release).then
            (optNatCmp a.epoch b.epoch)) ∧
      (PackageVersion.beq a b = true → PackageVersion.cmp a b = .eq) := by
  intro a b
  refine ⟨?_, ?_, ?_⟩
  · intro h
    rw [PackageVersion.cmp, then_of_ne_eq h]
  · intro h₁ h₂ h₃
    rw [PackageVersion.cmp, h₁, then_eq_left, h₂, then_eq_left, h₃,
      then_eq_left]
  · exact pvCmp_eq_of_beq

/-- C2, witness: the amended theorem applied to the parses of `"1.0.dev1"` and
`"2.0"` (first conjunct) and to two equal composites (third conjunct). -/
theorem C2_composite_order_witness :
    PackageVersion.cmp
        { original := "1.0.dev1".toList, localVer := none,
          dev := some { dev_num := some 1 }, post := none, pre := none,
          release := { major := 1, minor := 0 }, epoch := none }
        { original := "2.0".toList, localVer := none, dev := none,
          post := none, pre := none, release := { major := 2, minor := 0 },
          epoch := none } = .gt ∧
      PackageVersion.cmp
        { original := "v1.0".toList, localVer := none, dev := none,
          post := none, pre := none, release := { major := 1, minor := 0 },
          epoch := none }
        { original := "1.0".toList, localVer := none, dev := none,
          post := none, pre := none, release := { major := 1, minor := 0 },
          epoch := none } = .eq := by
  constructor
  · rw [(C2_composite_order _ _).1 (by decide)]
    decide
  · exact (C2_composite_order _ _).2.2 (by decide)

/-! ## Claim C3 — composite equality excludes `original` and `local` -/

/-- C3: under the src/lib.rs derivative equality, two versions agreeing on
`epoch, release, pre, post, dev` are `==` whatever their `original` or `local`;
in particular `parse "v1.0" == parse "1.0"` and
`parse "1.0+abc.5" == parse "1.0+abc.7"`. -/
theorem C3_equality_excludes_original_local :
    (∀ a b : PackageVersion, a.epoch = b.epoch → a.release = b.release →
      a.pre = b.pre → a.post = b.post → a.dev = b.dev →
      PackageVersion.beq a b = true) ∧
      okEqLib "v1.0".toList "1.0".toList = true ∧
      okEqLib "1.0+abc.5".toList "1.0+abc.7".toList = true := by
  refine ⟨?_, rfl, rfl⟩
  intro a b h₁ h₂ h₃ h₄ h₅
  exact pv_beq_iff.mpr ⟨h₅, h₄, h₃, h₂, h₁⟩

/-- C3, witness: the universal applied to the parses of `"1.0+abc.5"` and
`"1.0+abc.7"`, which agree on the five compared fields. -/
theorem C3_equality_excludes_original_local_witness :
    PackageVersion.beq
      { original := "1.0+abc.5".toList, localVer := some "abc.5".toList,
        dev := none, post := none, pre := none,
        release := { major := 1, minor := 0 }, epoch := none }
      { original := "1.0+abc.7".toList, localVer := some "abc.7".toList,
        dev := none, post := none, pre := none,
        release := { major := 1, minor := 0 }, epoch := none } = true :=
  C3_equality_excludes_original_local.1 _ _ rfl rfl rfl rfl rfl

/-! ## Claim C4 — absent epoch vs explicit `0!` -/

/-- C4, counterexample: the claim requires `parse "1.0" == parse "0!1.0"`, but
the derivative equality compares the optional epochs structurally
(`None ≠ Some 0`), so the two parses are not equal. -/
theorem C4_cex : okEqLib "1.0".toList "0!1.0".toList = false := rfl

/-- C4, amended: composite equality does not default an absent epoch to `0`:
`parse "1.0"` has `epoch = None`, `parse "0!1.0"` has `epoch = Some 0`, the two
are unequal (and even strictly ordered, `None` sorting below `Some 0`), and in
general `==` implies structural equality of the `epoch` fields. -/
theorem C4_epoch_not_defaulted :
    okEpoch "1.0".toList = some none ∧
      okEpoch "0!1.0".toList = some (some 0) ∧
      okEqLib "1.0".toList "0!1.0".toList = false ∧
      okCmp "1.0".toList "0!1.0".toList = some .lt ∧
      (∀ a b : PackageVersion, PackageVersion.beq a b = true →
        a.epoch = b.epoch) := by
  refine ⟨rfl, rfl, rfl, rfl, ?_⟩
  intro a b h
  exact (pv_beq_iff.mp h).2.2.2.2

/-- C4, witness: the universal conjunct applied to two concrete equal
composites. -/
theorem C4_epoch_not_defaulted_witness :
    ({ original := "1.0".toList, localVer := none, dev := none, post := none,
       pre := none, release := { major := 1, minor := 0 },
       epoch := none } : PackageVersion).epoch =
      ({ original := "v1.0".toList, localVer := none, dev := none,
         post := none, pre := none, release := { major := 1, minor := 0 },
         epoch := none } : PackageVersion).epoch :=
  C4_epoch_not_defaulted.2.2.2.2 _ _ (by decide)

/-! ## Claim C6 — pre-release ordering -/

/-- C6: the `PreHeader` ordering follows the fixed rank table
`Beta < Alpha < Preview < ReleaseCandidate` (the rank deciding whenever it
differs), a missing numeric suffix sorts below any present one (including 0)
within a variant, present suffixes compare numerically, and the rank dominates
the suffix — e.g. `ReleaseCandidate(Some 1) > Beta(Some 45067885)`. -/
theorem C6_pre_release_ordering :
    (∀ a b : PreHeader, a.rank < b.rank → a.cmp b = .lt) ∧
      (∀ a b : PreHeader, a.rank = b.rank → a.num = none →
        ∀ n, b.num = some n → a.cmp b = .lt) ∧
      (∀ a b : PreHeader, a.rank = b.rank → ∀ m n, a.num = some m →
        b.num = some n → a.cmp b = u32Cmp m n) ∧
      PreHeader.cmp (.Beta none) (.Alpha none) = .lt ∧
      PreHeader.cmp (.Alpha none) (.Preview none) = .lt ∧
      PreHeader.cmp (.Preview none) (.ReleaseCandidate none) = .lt ∧
      PreHeader.cmp (.ReleaseCandidate (some 1)) (.Beta (some 45067885)) =
        .gt := by
  refine ⟨?_, ?_, ?_, rfl, rfl, rfl, by decide⟩
  · intro a b h
    rw [preCmp_form, then_of_ne_eq]
    · exact u32Cmp_lt_iff.mpr h
    · simp [u32Cmp_eq_iff]
      omega
  · intro a b h hn n hm
    rw [preCmp_form, h, u32Cmp_self, then_eq_left, hn, hm]
    rfl
  · intro a b h m n hm hn
    rw [preCmp_form, h, u32Cmp_self, then_eq_left, hm, hn]
    rfl

/-- C6, witness: rank dominance and the missing-below-zero rule at concrete
values, through the theorem. -/
theorem C6_pre_release_ordering_witness :
    PreHeader.cmp (.Beta (some 45067885)) (.ReleaseCandidate (some 1)) = .lt ∧
      PreHeader.cmp (.Preview none) (.Preview (some 0)) = .lt ∧
      PreHeader.cmp (.Alpha (some 2)) (.Alpha (some 7)) = u32Cmp 2 7 :=
  ⟨C6_pre_release_ordering.1 _ _ (by decide),
   C6_pre_release_ordering.2.1 (.Preview none) (.Preview (some 0))
     rfl rfl 0 rfl,
   C6_pre_release_ordering.2.2.1 (.Alpha (some 2)) (.Alpha (some 7))
     rfl 2 7 rfl rfl⟩

/-! ## Claim C7 — algebraic laws of the segment comparisons -/

/-- C7, counterexample: for `PostHeader` an `Equal` comparison does not imply
equality — `{Post, Some 1}` and `{Rev, Some 1}` compare `Equal` but differ in
`post_head`, hence are unequal under the derived `PartialEq`. -/
theorem C7_cex :
    PostHeader.cmp { post_head := some .Post, post_num := some 1 }
        { post_head := some .Rev, post_num := some 1 } = .eq ∧
      ({ post_head := some .Post, post_num := some 1 } : PostHeader) ≠
        { post_head := some .Rev, post_num := some 1 } := by
  exact ⟨by decide, by decide⟩

/-- C7, amended: all four segment comparisons are reflexive and their
less-than-or-equal relations transitive; an `Equal` comparison implies equality
for `ReleaseHeader`, `PreHeader` and `DevHead`, while for `PostHeader` it is
equivalent only to equality of `post_num` (the `post_head` tag is ignored), so
structurally different values may compare `Equal`. -/
theorem C7_segment_comparison_laws :
    (∀ x : ReleaseHeader, x.cmp x = .eq) ∧
      (∀ x : PreHeader, x.cmp x = .eq) ∧
      (∀ x : PostHeader, x.cmp x = .eq) ∧
      (∀ x : DevHead, x.cmp x = .eq) ∧
      (∀ x y z : ReleaseHeader, x.cmp y ≠ .gt → y.cmp z ≠ .gt →
        x.cmp z ≠ .gt) ∧
      (∀ x y z : PreHeader, x.cmp y ≠ .gt → y.cmp z ≠ .gt → x.cmp z ≠ .gt) ∧
      (∀ x y z : PostHeader, x.cmp y ≠ .gt → y.cmp z ≠ .gt → x.cmp z ≠ .gt) ∧
      (∀ x y z : DevHead, x.cmp y ≠ .gt → y.cmp z ≠ .gt → x.cmp z ≠ .gt) ∧
      (∀ x y : ReleaseHeader, x.cmp y = .eq → x = y) ∧
      (∀ x y : PreHeader, x.cmp y = .eq → x = y) ∧
      (∀ x y : DevHead, x.cmp y = .eq → x = y) ∧
      (∀ x y : PostHeader, x.cmp y = .eq ↔ x.post_num = y.post_num) := by
  refine ⟨releaseCmp_self, preCmp_self, postCmp_self, devCmp_self,
    fun _ _ _ => releaseCmp_le_trans, fun _ _ _ => preCmp_le_trans,
    fun _ _ _ => postCmp_le_trans, fun _ _ _ => devCmp_le_trans,
    fun _ _ h => releaseCmp_eq_iff.mp h,
    fun _ _ h => ?_, fun _ _ h => devCmp_eq_iff.mp h,
    fun _ _ => postCmp_eq_iff⟩
  obtain ⟨h₁, h₂⟩ := preCmp_eq_iff.mp h
  exact pre_rank_num_ext h₁ h₂

/-- C7, witness: the transitivity and equality conjuncts applied at concrete
segment values. -/
theorem C7_segment_comparison_laws_witness :
    PreHeader.cmp (.Beta (some 1)) (.ReleaseCandidate none) ≠ .gt ∧
      (PostHeader.cmp { post_head := some .Post, post_num := some 1 }
          { post_head := some .Rev, post_num := some 1 } = .eq ↔
        (some 1 : Option Nat) = some 1) :=
  ⟨C7_segment_comparison_laws.2.2.2.2.2.1 _ (.Alpha none) _ (by decide)
      (by decide),
   C7_segment_comparison_laws.2.2.2.2.2.2.2.2.2.2.2
      { post_head := some .Post, post_num := some 1 }
      { post_head := some .Rev, post_num := some 1 }⟩

/-! ## Claim C8 — post and dev ordering ignore the tag -/

/-- C8: `PostHeader` comparison equals the `Option<u32>` comparison of the
`post_num` fields alone (so it is independent of `post_head`), with a missing
number below any present one (including 0) and present numbers numeric;
`DevHead` is ordered the same way on `dev_num`. -/
theorem C8_post_dev_numeric_ordering :
    (∀ x y : PostHeader, x.cmp y = optNatCmp x.post_num y.post_num) ∧
      (∀ x y : DevHead, x.cmp y = optNatCmp x.dev_num y.dev_num) ∧
      (∀ h₁ h₂ : Option PostHead, ∀ n,
        PostHeader.cmp { post_head := h₁, post_num := none }
          { post_head := h₂, post_num := some n } = .lt) ∧
      (∀ h₁ h₂ : Option PostHead, ∀ m n, m < n →
        PostHeader.cmp { post_head := h₁, post_num := some m }
          { post_head := h₂, post_num := some n } = .lt) ∧
      DevHead.cmp { dev_num := none } { dev_num := some 0 } = .lt ∧
      DevHead.cmp { dev_num := some 0 } { dev_num := some 1 } = .lt := by
  refine ⟨postCmp_eq_optNatCmp, fun _ _ => rfl, ?_, ?_, rfl, by decide⟩
  · intro h₁ h₂ n
    rw [postCmp_eq_optNatCmp]
    rfl
  · intro h₁ h₂ m n h
    rw [postCmp_eq_optNatCmp]
    exact u32Cmp_lt_iff.mpr h

/-- C8, witness: the tag-independence conjuncts at concrete values. -/
theorem C8_post_dev_numeric_ordering_witness :
    PostHeader.cmp { post_head := some .Rev, post_num := none }
        { post_head := some .Post, post_num := some 0 } = .lt ∧
      PostHeader.cmp { post_head := none, post_num := some 0 }
        { post_head := some .Rev, post_num := some 1 } = .lt :=
  ⟨C8_post_dev_numeric_ordering.2.2.1 _ _ 0,
   C8_post_dev_numeric_ordering.2.2.2.1 _ _ 0 1 (by decide)⟩

/-! ## Claim C5 — hashing (src/version.rs) -/

theorem vrsEq_iff {a b : PackageVersion} :
    VersionRs.eq a b = true ↔
      a.release = b.release ∧ a.localVer = b.localVer ∧ a.dev = b.dev ∧
        a.epoch = b.epoch ∧ a.post = b.post ∧ a.pre = b.pre := by
  simp [VersionRs.eq, and_assoc]

/-- C5, counterexample: the claim says the hash is computed only from the five
equality fields (`epoch, release, pre, post, dev`), excluding `original` and
`local`, so that versions differing only in `local` hash equal.  But
`parse "1.0+abc.5"` and `parse "1.0+abc.7"` agree on those five fields while
the `Hash` impl of src/version.rs feeds their different `local` segments to the
hasher, producing different hash inputs. -/
theorem C5_cex :
    agreeFive "1.0+abc.5".toList "1.0+abc.7".toList = true ∧
      okHashEqV "1.0+abc.5".toList "1.0+abc.7".toList = false := ⟨rfl, rfl⟩

/-- C5, amended: the src/version.rs hash is computed from the six fields
`release, local, dev, epoch, post, pre` — excluding only `original` — and the
manual equality of the same file compares exactly those six fields, so `a == b`
still implies `hash a = hash b`; but two versions differing only in `local`
neither compare equal nor hash equal (while differing only in `original` keeps
both equality and the hash). -/
theorem C5_hash_law :
    (∀ a b : PackageVersion, VersionRs.eq a b = true →
      VersionRs.hashFields a = VersionRs.hashFields b) ∧
      (∀ a b : PackageVersion, a.release = b.release →
        a.localVer = b.localVer → a.dev = b.dev → a.epoch = b.epoch →
        a.post = b.post → a.pre = b.pre →
        VersionRs.hashFields a = VersionRs.hashFields b) ∧
      okHashEqV "v1.0".toList "1.0".toList = true ∧
      okEqV "1.0+abc.5".toList "1.0+abc.7".toList = false ∧
      okHashEqV "1.0+abc.5".toList "1.0+abc.7".toList = false := by
  refine ⟨?_, ?_, rfl, rfl, rfl⟩
  · intro a b h
    obtain ⟨h₁, h₂, h₃, h₄, h₅, h₆⟩ := vrsEq_iff.mp h
    simp [VersionRs.hashFields, h₁, h₂, h₃, h₄, h₅, h₆]
  · intro a b h₁ h₂ h₃ h₄ h₅ h₆
    simp [VersionRs.hashFields, h₁, h₂, h₃, h₄, h₅, h₆]

/-- C5, witness: the hash law applied to the parses of `"v1.0"` and `"1.0"`,
which are equal under the src/version.rs equality (differing only in
`original`). -/
theorem C5_hash_law_witness :
    VersionRs.hashFields
        { original := "v1.0".toList, localVer := none, dev := none,
          post := none, pre := none, release := { major := 1, minor := 0 },
          epoch := none } =
      VersionRs.hashFields
        { original := "1.0".toList, localVer := none, dev := none,
          post := none, pre := none, release := { major := 1, minor := 0 },
          epoch := none } :=
  C5_hash_law.1 _ _ (by decide)

/-! ## Digit runs and `splitOnChar` lemmas -/

theorem all_takeWhile (p : α → Bool) (l : List α) :
    (l.takeWhile p).all p = true := by
  induction l with
  | nil => rfl
  | cons c t ih =>
    rw [List.takeWhile_cons]
    cases h : p c with
    | true => simp [h, ih]
    | false => rfl

theorem takeWhile_good {s run : List Char} (hne : run.isEmpty = false)
    (h : run = s.takeWhile isDigit) : goodRun run := by
  constructor
  · intro hnil
    rw [hnil] at hne
    exact absurd hne (by simp)
  · rw [h]
    exact all_takeWhile isDigit s

theorem digit_ne_dot {c : Char} (h : isDigit c = true) : ¬(c = '.') := by
  intro hc
  rw [hc] at h
  exact absurd h (by decide)

theorem goodRun_no_dot {v : List Char} (h : goodRun v) : ¬('.' ∈ v) := by
  intro hm
  have := List.all_eq_true.mp h.2 _ hm
  exact digit_ne_dot this rfl

theorem splitOnChar_ne_nil (sep : Char) (s : List Char) :
    splitOnChar sep s ≠ [] := by
  cases s with
  | nil => simp [splitOnChar]
  | cons c r =>
    rw [splitOnChar]
    split
    · simp
    · split <;> simp

theorem splitOnChar_noSep_append {sep : Char} {xs r p : List Char}
    {ps : List (List Char)} (h : ∀ c ∈ xs, ¬(c = sep))
    (hr : splitOnChar sep r = p :: ps) :
    splitOnChar sep (xs ++ r) = (xs ++ p) :: ps := by
  induction xs with
  | nil => simpa using hr
  | cons c xs ih =>
    have hc : ¬(c = sep) := h c (List.mem_cons_self c xs)
    have ih' := ih (fun d hd => h d (List.mem_cons_of_mem c hd))
    rw [List.cons_append, splitOnChar, if_neg hc, ih']
    rfl

theorem split_dotRuns {ps : List (List Char)} (h : ∀ p ∈ ps, goodRun p) :
    splitOnChar '.' (dotRuns ps) = [] :: ps := by
  induction ps with
  | nil => rfl
  | cons p ps ih =>
    have hp : goodRun p := h p (List.mem_cons_self p ps)
    have ih' := ih (fun q hq => h q (List.mem_cons_of_mem p hq))
    have hnosep : ∀ c ∈ p, ¬(c = '.') := by
      intro c hc hceq
      exact goodRun_no_dot hp (hceq ▸ hc)
    have : splitOnChar '.' (p ++ dotRuns ps) = (p ++ []) :: ps :=
      splitOnChar_noSep_append hnosep ih'
    rw [dotRuns, List.cons_append, splitOnChar, if_pos rfl, this,
      List.append_nil]

theorem contains_iff_mem (l : List Char) (c : Char) :
    l.contains c = true ↔ c ∈ l := by
  induction l with
  | nil => simp
  | cons d t ih =>
    constructor
    · intro h
      rcases List.mem_cons.mpr (Or.inl rfl) with _
      by_cases hd : c = d
      · exact hd ▸ List.mem_cons_self d t
      · have : t.contains c = true := by
          simpa [List.contains, List.elem_cons, beq_iff_eq, hd] using h
        exact List.mem_cons_of_mem d (ih.mp this)
    · intro h
      rcases List.mem_cons.mp h with h | h
      · simp [List.contains, List.elem_cons, h]
      · have := ih.mpr h
        simp [List.contains, List.elem_cons] at this ⊢
        exact Or.inr this

/-- The structural facts about a well-shaped `release` capture that
`PackageVersion::new` relies on. -/
theorem goodRelease_split {rel : List Char} (h : goodRelease rel) :
    ∃ ds ps, splitOnChar '.' rel = ds :: ps ∧ goodRun ds ∧
      (∀ p ∈ ps, goodRun p) ∧ (rel.contains '.' = true ↔ ps ≠ []) := by
  obtain ⟨ds, ps, hrel, hds, hps⟩ := h
  refine ⟨ds, ps, ?_, hds, hps, ?_⟩
  · rw [hrel]
    have hsplit := split_dotRuns hps
    have hnosep : ∀ c ∈ ds, ¬(c = '.') := by
      intro c hc hceq
      exact goodRun_no_dot hds (hceq ▸ hc)
    have := splitOnChar_noSep_append hnosep hsplit
    rw [this, List.append_nil]
  · rw [hrel, contains_iff_mem]
    constructor
    · intro hm
      rcases List.mem_append.mp hm with hm | hm
      · exact absurd hm (goodRun_no_dot hds)
      · intro hnil
        rw [hnil] at hm
        exact absurd hm (by simp [dotRuns])
    · intro hne
      cases ps with
      | nil => exact absurd rfl hne
      | cons q qs =>
        refine List.mem_append.mpr (Or.inr ?_)
        rw [dotRuns]
        exact List.mem_cons_self _ _

/-! ## Matcher invariants -/

theorem matchKw_mem {kws : List (List Char)} {s kw r : List Char}
    (h : matchKw kws s = some (kw, r)) : kw ∈ kws := by
  induction kws with
  | nil => exact absurd h (by simp [matchKw])
  | cons k ks ih =>
    rw [matchKw] at h
    split at h
    · simp only [Option.some.injEq, Prod.mk.injEq] at h
      exact h.1 ▸ List.mem_cons_self _ _
    · exact List.mem_cons_of_mem _ (ih h)

theorem sepNumAfter_fst_good {s v : List Char}
    (h : (sepNumAfter s).1 = some v) : goodRun v := by
  simp only [sepNumAfter] at h
  split at h
  · exact absurd h (by simp)
  · rename_i hne
    simp only [Option.some.injEq] at h
    exact takeWhile_good (h ▸ Bool.eq_false_iff.mpr hne) h.symm

theorem sepNum_fst_good {s v : List Char}
    (h : (sepNum s).1 = some v) : goodRun v := by
  cases s with
  | nil =>
    rw [sepNum] at h
    exact sepNumAfter_fst_good h
  | cons c r =>
    rw [sepNum] at h
    split at h
    · exact sepNumAfter_fst_good h
    · exact sepNumAfter_fst_good h

theorem kwTail_spec {kws : List (List Char)} {s kw rest : List Char}
    {n : Option (List Char)}
    (h : kwTail kws s = some (kw, n, rest)) :
    kw ∈ kws ∧ ∀ v, n = some v → goodRun v := by
  rw [kwTail] at h
  split at h
  · rename_i kw' r' hm
    simp only [Option.some.injEq, Prod.mk.injEq] at h
    obtain ⟨rfl, rfl, rfl⟩ := h
    exact ⟨matchKw_mem hm, fun v hv => sepNum_fst_good hv⟩
  · exact absurd h (by simp)

theorem kwGroup_spec {kws : List (List Char)} {s kw rest : List Char}
    {n : Option (List Char)}
    (h : kwGroup kws s = some (kw, n, rest)) :
    kw ∈ kws ∧ ∀ v, n = some v → goodRun v := by
  cases s with
  | nil =>
    rw [kwGroup] at h
    exact kwTail_spec h
  | cons c r =>
    rw [kwGroup] at h
    split at h
    · split at h
      · rename_i g hg
        simp only [Option.some.injEq] at h
        rw [h] at hg
        exact kwTail_spec hg
      · exact kwTail_spec h
    · exact kwTail_spec h

theorem postKwForm_spec {s rest : List Char} {l n1 n2 : Option (List Char)}
    (h : postKwForm s = some (l, n1, n2, rest)) :
    (∀ v, l = some v → v ∈ postKws) ∧ (∀ v, n1 = some v → goodRun v) ∧
      ∀ v, n2 = some v → goodRun v := by
  rw [postKwForm] at h
  split at h
  · rename_i kw' n' rest' hkw
    simp only [Option.some.injEq, Prod.mk.injEq] at h
    obtain ⟨rfl, rfl, rfl, rfl⟩ := h
    obtain ⟨hmem, hgood⟩ := kwGroup_spec hkw
    refine ⟨fun v hv => ?_, by simp, hgood⟩
    simp only [Option.some.injEq] at hv
    exact hv ▸ hmem
  · exact absurd h (by simp)

theorem postGroup_spec {s rest : List Char} {l n1 n2 : Option (List Char)}
    (h : postGroup s = some (l, n1, n2, rest)) :
    (∀ v, l = some v → v ∈ postKws) ∧ (∀ v, n1 = some v → goodRun v) ∧
      ∀ v, n2 = some v → goodRun v := by
  cases s with
  | nil =>
    rw [postGroup] at h
    exact postKwForm_spec h
  | cons c r =>
    simp only [postGroup] at h
    split at h
    · split at h
      · exact postKwForm_spec h
      · rename_i hne
        simp only [Option.some.injEq, Prod.mk.injEq] at h
        obtain ⟨rfl, rfl, rfl, rfl⟩ := h
        refine ⟨by simp, fun v hv => ?_, by simp⟩
        simp only [Option.some.injEq] at hv
        exact hv ▸ takeWhile_good (Bool.eq_false_iff.mpr hne) rfl
    · exact postKwForm_spec h

theorem releaseTailF_shape (fuel : Nat) (r : List Char) :
    ∃ ps rest, releaseTailF fuel r = (dotRuns ps, rest) ∧
      ∀ p ∈ ps, goodRun p := by
  induction fuel generalizing r with
  | zero => exact ⟨[], r, rfl, by simp⟩
  | succ fuel ih =>
    cases r with
    | nil => exact ⟨[], [], rfl, by simp⟩
    | cons c r1 =>
      rw [releaseTailF]
      by_cases hc : c = '.'
      · rw [if_pos hc]
        by_cases hne : (r1.takeWhile isDigit).isEmpty
        · rw [if_pos hne]
          exact ⟨[], c :: r1, rfl, by simp⟩
        · rw [if_neg hne]
          obtain ⟨ps, rest, hrec, hgood⟩ := ih (r1.dropWhile isDigit)
          refine ⟨r1.takeWhile isDigit :: ps, rest, ?_, ?_⟩
          · simp only [hrec, dotRuns]
          · intro p hp
            rcases List.mem_cons.mp hp with hp | hp
            · exact hp ▸ takeWhile_good (by simpa using hne) rfl
            · exact hgood p hp
      · rw [if_neg hc]
        exact ⟨[], c :: r1, rfl, by simp⟩

theorem releaseFrom_good {run rest : List Char} (h : goodRun run) :
    goodRelease (releaseFrom run rest).1 := by
  obtain ⟨ps, rest', hshape, hgood⟩ := releaseTailF_shape rest.length rest
  exact ⟨run, ps, by rw [releaseFrom, hshape], h, hgood⟩

theorem finishDev_inv {epoch : Option (List Char)} {rel : List Char}
    {preB postB : Bool} {preL preN postL postN1 postN2 : Option (List Char)}
    {r2 : List Char}
    (hep : ∀ v, epoch = some v → goodRun v) (hrel : goodRelease rel)
    (hpre : preB = true → ∃ kw, preL = some kw ∧ kw ∈ preKws)
    (hpreL : preL = none ∨ ∃ kw, preL = some kw ∧ kw ∈ preKws)
    (hpreN : ∀ v, preN = some v → goodRun v)
    (hn1 : ∀ v, postN1 = some v → goodRun v)
    (hn2 : ∀ v, postN2 = some v → goodRun v) :
    CapturesInv
      (finishDev epoch rel preB preL preN postB postL postN1 postN2 r2) := by
  rw [finishDev]
  split
  · rename_i kw' n' rest' hdev
    obtain ⟨_, hgood⟩ := kwGroup_spec hdev
    exact ⟨hep, ⟨rel, rfl, hrel⟩, hpre, hpreL, hpreN, hn1, hn2, hgood⟩
  · exact ⟨hep, ⟨rel, rfl, hrel⟩, hpre, hpreL, hpreN, hn1, hn2, by simp⟩

theorem finishPost_inv {epoch : Option (List Char)} {rel : List Char}
    {preB : Bool} {preL preN : Option (List Char)} {r1 : List Char}
    (hep : ∀ v, epoch = some v → goodRun v) (hrel : goodRelease rel)
    (hpre : preB = true → ∃ kw, preL = some kw ∧ kw ∈ preKws)
    (hpreL : preL = none ∨ ∃ kw, preL = some kw ∧ kw ∈ preKws)
    (hpreN : ∀ v, preN = some v → goodRun v) :
    CapturesInv (finishPost epoch rel preB preL preN r1) := by
  rw [finishPost]
  split
  · rename_i l n1 n2 rest hpost
    obtain ⟨_, hg1, hg2⟩ := postGroup_spec hpost
    exact finishDev_inv hep hrel hpre hpreL hpreN hg1 hg2
  · exact finishDev_inv hep hrel hpre hpreL hpreN (by simp) (by simp)

theorem finish_inv {epoch : Option (List Char)} {rel r0 : List Char}
    (hep : ∀ v, epoch = some v → goodRun v) (hrel : goodRelease rel) :
    CapturesInv (finish epoch rel r0) := by
  rw [finish]
  split
  · rename_i kw n rest hkw
    obtain ⟨hmem, hgood⟩ := kwGroup_spec hkw
    exact finishPost_inv hep hrel (fun _ => ⟨kw, rfl, hmem⟩)
      (Or.inr ⟨kw, rfl, hmem⟩) hgood
  · exact finishPost_inv hep hrel (fun h => absurd h (by simp))
      (Or.inl rfl) (by simp)

theorem matchCore_inv {s : List Char} {m : Captures}
    (h : matchCore s = some m) : CapturesInv m := by
  simp only [matchCore] at h
  split at h
  · exact absurd h (by simp)
  · rename_i hne
    have hds : goodRun (s.takeWhile isDigit) :=
      takeWhile_good (Bool.eq_false_iff.mpr hne) rfl
    split at h
    · rename_i c r2 hdrop
      split at h
      · split at h
        · simp only [Option.some.injEq] at h
          exact h ▸ finish_inv (by simp) (releaseFrom_good hds)
        · rename_i hne2
          have hds2 : goodRun (r2.takeWhile isDigit) :=
            takeWhile_good (Bool.eq_false_iff.mpr hne2) rfl
          simp only [Option.some.injEq] at h
          refine h ▸ finish_inv ?_ (releaseFrom_good hds2)
          intro v hv
          simp only [Option.some.injEq] at hv
          exact hv ▸ hds
      · simp only [Option.some.injEq] at h
        exact h ▸ finish_inv (by simp) (releaseFrom_good hds)
    · simp only [Option.some.injEq] at h
      exact h ▸ finish_inv (by simp) (releaseFrom_good hds)

theorem matchAt_inv {s : List Char} {m : Captures}
    (h : matchAt s = some m) : CapturesInv m := by
  cases s with
  | nil =>
    rw [matchAt] at h
    exact matchCore_inv h
  | cons c r =>
    rw [matchAt] at h
    split at h
    · split at h
      · rename_i caps hcaps
        simp only [Option.some.injEq] at h
        exact h ▸ matchCore_inv hcaps
      · exact matchCore_inv h
    · exact matchCore_inv h

theorem findMatch_inv {s : List Char} {m : Captures}
    (h : findMatch s = some m) : CapturesInv m := by
  induction s with
  | nil =>
    rw [findMatch] at h
    exact matchAt_inv h
  | cons c t ih =>
    rw [findMatch] at h
    split at h
    · rename_i caps hcaps
      simp only [Option.some.injEq] at h
      exact h ▸ matchAt_inv hcaps
    · exact ih h

/-! ## Characterization of the conversions in `PackageVersion::new` -/

theorem convEpoch_err {m : Captures} (h : epochOver m = true) :
    convEpoch m = .error (.err .intError) := by
  rw [convEpoch]
  rw [epochOver] at h
  split at h
  · rename_i v hv
    rcases hp : parseU32 v with _ | n
    · rfl
    · rw [hp] at h
      exact absurd h (by simp)
  · exact absurd h (by simp)

theorem convEpoch_ok {m : Captures} (h : epochOver m = false) :
    ∃ x, convEpoch m = .ok x := by
  rw [convEpoch]
  rw [epochOver] at h
  split at h
  · rename_i v hv
    rcases hp : parseU32 v with _ | n
    · rw [hp] at h
      exact absurd h (by simp)
    · exact ⟨_, rfl⟩
  · exact ⟨_, rfl⟩

theorem convRelease_err {version : List Char} {m : Captures} {rel : List Char}
    (hm : m.release = some rel) (hrel : goodRelease rel)
    (h : relOver m = true) :
    convRelease version m = .error (.err .intError) := by
  obtain ⟨ds, ps, hsplit, hds, hps, hcont⟩ := goodRelease_split hrel
  simp only [relOver, hm] at h
  simp only [convRelease, hm]
  by_cases hc : rel.contains '.' = true
  · rw [if_pos hc] at h ⊢
    obtain ⟨q, qs, rfl⟩ : ∃ q qs, ps = q :: qs := by
      rcases ps with _ | ⟨q, qs⟩
      · exact absurd rfl (hcont.mp hc)
      · exact ⟨q, qs, rfl⟩
    rw [hsplit] at h ⊢
    simp only [List.get?_cons_zero, List.get?_cons_succ] at h ⊢
    rcases h0 : parseU32 ds with _ | n0
    · rfl
    · rw [h0] at h
      simp only [Option.isNone_some, Bool.false_or] at h
      rcases h1 : parseU32 q with _ | n1
      · rfl
      · rw [h1] at h
        exact absurd h (by simp)
  · rw [if_neg hc] at h ⊢
    rcases h0 : parseU32 rel with _ | n0
    · rfl
    · rw [h0] at h
      exact absurd h (by simp)

theorem convRelease_ok {version : List Char} {m : Captures} {rel : List Char}
    (hm : m.release = some rel) (hrel : goodRelease rel)
    (h : relOver m = false) :
    ∃ x, convRelease version m = .ok x := by
  obtain ⟨ds, ps, hsplit, hds, hps, hcont⟩ := goodRelease_split hrel
  simp only [relOver, hm] at h
  simp only [convRelease, hm]
  by_cases hc : rel.contains '.' = true
  · rw [if_pos hc] at h ⊢
    obtain ⟨q, qs, rfl⟩ : ∃ q qs, ps = q :: qs := by
      rcases ps with _ | ⟨q, qs⟩
      · exact absurd rfl (hcont.mp hc)
      · exact ⟨q, qs, rfl⟩
    rw [hsplit] at h ⊢
    simp only [List.get?_cons_zero, List.get?_cons_succ] at h ⊢
    rcases h0 : parseU32 ds with _ | n0
    · rw [h0] at h
      exact absurd h (by simp)
    · rw [h0] at h
      simp only [Option.isNone_some, Bool.false_or] at h
      rcases h1 : parseU32 q with _ | n1
      · rw [h1] at h
        exact absurd h (by simp)
      · exact ⟨_, rfl⟩
  · rw [if_neg hc] at h ⊢
    rcases h0 : parseU32 rel with _ | n0
    · rw [h0] at h
      exact absurd h (by simp)
    · exact ⟨_, rfl⟩

theorem convPre_err {m : Captures} (h : preOver m = true) :
    convPre m = .error (.err .intError) := by
  rw [convPre]
  rw [preOver] at h
  split at h
  · split at h
    · rename_i v hv
      rcases hp : parseU32 v with _ | n
      · rfl
      · rw [hp] at h
        exact absurd h (by simp)
    · exact absurd h (by simp)
  · exact absurd h (by simp)

theorem convPre_ok {m : Captures} (hl : m.pre = true → m.pre_l ≠ none)
    (h : preOver m = false) : ∃ x, convPre m = .ok x := by
  rw [convPre]
  rw [preOver] at h
  split at h
  · rename_i hpre
    split at h
    · rename_i v hv
      rcases hp : parseU32 v with _ | n
      · rw [hp] at h
        exact absurd h (by simp)
      · rcases hlv : m.pre_l with _ | kw
        · exact absurd hlv (hl hpre)
        · dsimp only
          split_ifs <;> exact ⟨_, rfl⟩
    · rcases hlv : m.pre_l with _ | kw
      · exact absurd hlv (hl (by assumption))
      · dsimp only
        split_ifs <;> exact ⟨_, rfl⟩
  · exact ⟨_, rfl⟩

theorem convPost_err {m : Captures} (h : postOver m = true) :
    convPost m = .error (.err .intError) := by
  rw [convPost]
  rw [postOver] at h
  split at h
  · split at h
    · rename_i v hv
      rcases hp : parseU32 v with _ | n
      · rfl
      · rw [hp] at h
        exact absurd h (by simp)
    · split at h
      · rename_i v hv
        rcases hp : parseU32 v with _ | n
        · rfl
        · rw [hp] at h
          exact absurd h (by simp)
      · exact absurd h (by simp)
  · exact absurd h (by simp)

theorem convPost_ok {m : Captures} (h : postOver m = false) :
    ∃ x, convPost m = .ok x := by
  rw [convPost]
  rw [postOver] at h
  split at h
  · split at h
    · rename_i v hv
      rcases hp : parseU32 v with _ | n
      · rw [hp] at h
        exact absurd h (by simp)
      · exact ⟨_, rfl⟩
    · split at h
      · rename_i v hv
        rcases hp : parseU32 v with _ | n
        · rw [hp] at h
          exact absurd h (by simp)
        · exact ⟨_, rfl⟩
      · exact ⟨_, rfl⟩
  · exact ⟨_, rfl⟩

theorem convDev_err {m : Captures} (h : devOver m = true) :
    convDev m = .error (.err .intError) := by
  rw [convDev]
  rw [devOver] at h
  split at h
  · split at h
    · rename_i v hv
      rcases hp : parseU32 v with _ | n
      · rfl
      · rw [hp] at h
        exact absurd h (by simp)
    · exact absurd h (by simp)
  · exact absurd h (by simp)

theorem convDev_ok {m : Captures} (h : devOver m = false) :
    ∃ x, convDev m = .ok x := by
  rw [convDev]
  rw [devOver] at h
  split at h
  · split at h
    · rename_i v hv
      rcases hp : parseU32 v with _ | n
      · rw [hp] at h
        exact absurd h (by simp)
      · exact ⟨_, rfl⟩
    · exact ⟨_, rfl⟩
  · exact ⟨_, rfl⟩

/-! ## `buildVersion` and `new` characterization -/

theorem buildVersion_ok {version : List Char} {m : Captures}
    (hInv : CapturesInv m) (hov : overflows m = false) :
    ∃ v, buildVersion version m = .ok v := by
  obtain ⟨hep, ⟨rel, hm, hrel⟩, hpre, hpreL, hpreN, hn1, hn2, hdevN⟩ := hInv
  rw [overflows] at hov
  simp only [Bool.or_eq_false_iff] at hov
  obtain ⟨⟨⟨⟨hE, hR⟩, hP⟩, hQ⟩, hD⟩ := hov
  obtain ⟨x1, h1⟩ := convEpoch_ok hE
  obtain ⟨x2, h2⟩ := convRelease_ok hm hrel hR
  obtain ⟨x3, h3⟩ := convPre_ok
    (fun hp => by obtain ⟨kw, hkw, _⟩ := hpre hp; simp [hkw]) hP
  obtain ⟨x4, h4⟩ := convPost_ok hQ
  obtain ⟨x5, h5⟩ := convDev_ok hD
  rw [buildVersion, h1, h2, h3, h4, h5]
  exact ⟨_, rfl⟩

theorem buildVersion_err {version : List Char} {m : Captures}
    (hInv : CapturesInv m) (hov : overflows m = true) :
    buildVersion version m = .error (.err .intError) := by
  obtain ⟨hep, ⟨rel, hm, hrel⟩, hpre, hpreL, hpreN, hn1, hn2, hdevN⟩ := hInv
  cases hE : epochOver m with
  | true => rw [buildVersion, convEpoch_err hE]
  | false =>
    obtain ⟨x1, h1⟩ := convEpoch_ok hE
    cases hR : relOver m with
    | true => rw [buildVersion, h1, convRelease_err hm hrel hR]
    | false =>
      obtain ⟨x2, h2⟩ := convRelease_ok hm hrel hR
      cases hP : preOver m with
      | true => rw [buildVersion, h1, h2, convPre_err hP]
      | false =>
        obtain ⟨x3, h3⟩ := convPre_ok
          (fun hp => by obtain ⟨kw, hkw, _⟩ := hpre hp; simp [hkw]) hP
        cases hQ : postOver m with
        | true => rw [buildVersion, h1, h2, h3, convPost_err hQ]
        | false =>
          obtain ⟨x4, h4⟩ := convPost_ok hQ
          cases hD : devOver m with
          | true => rw [buildVersion, h1, h2, h3, h4, convDev_err hD]
          | false =>
            rw [overflows, hE, hR, hP, hQ, hD] at hov
            exact absurd hov (by simp)

theorem convertedRuns_good {m : Captures} (hInv : CapturesInv m) :
    ∀ v ∈ convertedRuns m, goodRun v := by
  obtain ⟨hep, ⟨rel, hm, hrel⟩, hpre, hpreL, hpreN, hn1, hn2, hdevN⟩ := hInv
  intro v hv
  rw [convertedRuns] at hv
  simp only [List.mem_append] at hv
  rcases hv with ((((hv | hv) | hv) | hv) | hv)
  · rcases he : m.epoch with _ | v'
    · rw [he] at hv
      exact absurd hv (by simp)
    · rw [he] at hv
      simp only [List.mem_singleton] at hv
      exact hv ▸ hep v' he
  · simp only [hm] at hv
    obtain ⟨ds, ps, hsplit, hds, hps, hcont⟩ := goodRelease_split hrel
    by_cases hc : rel.contains '.' = true
    · rw [if_pos hc, hsplit] at hv
      have hmem : v ∈ ds :: ps := List.take_subset 2 _ hv
      rcases List.mem_cons.mp hmem with hv' | hv'
      · exact hv' ▸ hds
      · exact hps v hv'
    · rw [if_neg hc] at hv
      simp only [List.mem_singleton] at hv
      subst hv
      obtain ⟨ds', ps', hrel', hds', hps'⟩ := hrel
      have hnil : ps' = [] := by
        by_contra hne
        have : v.contains '.' = true := by
          rw [hrel', contains_iff_mem]
          rcases ps' with _ | ⟨q, qs⟩
          · exact absurd rfl hne
          · exact List.mem_append.mpr (Or.inr (by
              rw [dotRuns]; exact List.mem_cons_self _ _))
        exact hc this
      rw [hrel', hnil, dotRuns, List.append_nil]
      exact hds'
  · split at hv
    · split at hv
      · rename_i v' hn
        simp only [List.mem_singleton] at hv
        exact hv ▸ hpreN v' hn
      · exact absurd hv (by simp)
    · exact absurd hv (by simp)
  · split at hv
    · split at hv
      · rename_i v' hn
        simp only [List.mem_singleton] at hv
        exact hv ▸ hn1 v' hn
      · split at hv
        · rename_i v' hn'
          simp only [List.mem_singleton] at hv
          exact hv ▸ hn2 v' hn'
        · exact absurd hv (by simp)
    · exact absurd hv (by simp)
  · split at hv
    · split at hv
      · rename_i v' hn
        simp only [List.mem_singleton] at hv
        exact hv ▸ hdevN v' hn
      · exact absurd hv (by simp)
    · exact absurd hv (by simp)

/-! ## Claim C1 — parse error characterization -/

/-- C1, counterexample: the claim allows an error-free parse only when the
whole input matches the grammar, and asserts there is no partial acceptance.
But the validation regex is unanchored: for `"x1.0"` no match of the pattern
even starts at position 0 (`matchAt` fails there, so in particular the string
as a whole does not match the grammar), yet `PackageVersion::new` accepts the
input by matching the proper substring `"1.0"`. -/
theorem C1_cex :
    isOk (PackageVersion.new "x1.0".toList) = true ∧
      matchAt "x1.0".toList = none := ⟨rfl, rfl⟩

/-- C1, amended: `new` returns an error iff the unanchored regex finds no
match anywhere in the input (acceptance is by substring match, not whole-string
match) or the `u32` conversion of one of the captured digit runs fails; the
no-match error carries the original input, the conversion error is the
distinct `intError`, and every run so converted is a nonempty digit string
(so a conversion fails exactly on overflow). -/
theorem C1_parse_error_characterization :
    ∀ s : List Char,
      (findMatch s = none →
        PackageVersion.new s = .error (.err (.grammarMismatch s))) ∧
      (∀ m, findMatch s = some m →
        (overflows m = false → ∃ v, PackageVersion.new s = .ok v) ∧
        (overflows m = true →
          PackageVersion.new s = .error (.err .intError)) ∧
        (∀ v, v ∈ convertedRuns m → goodRun v)) := by
  intro s
  constructor
  · intro h
    rw [PackageVersion.new, validate_440_version, h]
  · intro m hm
    have hInv := findMatch_inv hm
    refine ⟨?_, ?_, convertedRuns_good hInv⟩
    · intro hov
      rw [PackageVersion.new, validate_440_version, hm]
      exact buildVersion_ok hInv hov
    · intro hov
      rw [PackageVersion.new, validate_440_version, hm]
      exact buildVersion_err hInv hov

/-- C1, witness: the characterization applied to a no-match input, an
accepted input, and an input whose release major overflows `u32`. -/
theorem C1_parse_error_characterization_witness :
    PackageVersion.new "not a version".toList =
        .error (.err (.grammarMismatch "not a version".toList)) ∧
      (∃ v, PackageVersion.new "1.0a1".toList = .ok v) ∧
      PackageVersion.new "4294967296.0".toList = .error (.err .intError) :=
  ⟨(C1_parse_error_characterization "not a version".toList).1 rfl,
   ((C1_parse_error_characterization "1.0a1".toList).2 _ rfl).1 rfl,
   ((C1_parse_error_characterization "4294967296.0".toList).2 _ rfl).2.1 rfl⟩

/-! ## Claim C9 — keyword case sensitivity -/

/-- C9, counterexample: the claim requires `"1.0RC1"` to parse with the same
pre-release segment as `"1.0rc1"` and the two parses to be equal; in fact
`"1.0RC1"` parses with no pre-release segment at all (the unanchored regex
matches just `"1.0"`), and the two parses are unequal. -/
theorem C9_cex :
    preOf "1.0RC1".toList = some none ∧
      okEqLib "1.0RC1".toList "1.0rc1".toList = false := ⟨rfl, rfl⟩

/-- C9, amended: keyword matching is case-sensitive — the alternations contain
only the lowercase keywords, so every captured `pre_l` is one of the eight
lowercase forms.  `"1.0RC1"` still parses (the unanchored regex accepts the
substring `"1.0"`) but with `pre = None`, unequal to `parse "1.0rc1"` whose
pre-release segment is `ReleaseCandidate(Some 1)`; lowercase synonyms do
collapse, e.g. `parse "1.0rc" == parse "1.0c"`. -/
theorem C9_keyword_case_sensitivity :
    preOf "1.0RC1".toList = some none ∧
      preOf "1.0rc1".toList =
        some (some (.ReleaseCandidate (some 1))) ∧
      okEqLib "1.0RC1".toList "1.0rc1".toList = false ∧
      okEqLib "1.0rc".toList "1.0c".toList = true ∧
      (∀ s m kw, findMatch s = some m → m.pre_l = some kw →
        kw ∈ preKws) := by
  refine ⟨rfl, rfl, rfl, rfl, ?_⟩
  intro s m kw hm hkw
  obtain ⟨_, _, _, hpreL, _⟩ := findMatch_inv hm
  rcases hpreL with hnone | ⟨kw', hkw', hmem⟩
  · rw [hnone] at hkw
    exact absurd hkw (by simp)
  · rw [hkw'] at hkw
    simp only [Option.some.injEq] at hkw
    exact hkw ▸ hmem

/-- C9, witness: the lowercase-capture conjunct applied to `"1.0rc1"`, whose
`pre_l` capture is `"rc"`. -/
theorem C9_keyword_case_sensitivity_witness :
    "rc".toList ∈ preKws :=
  C9_keyword_case_sensitivity.2.2.2.2 "1.0rc1".toList _ "rc".toList rfl rfl

/-! ## Claim C10 — `new` never panics -/

/-- C10: for every input, `PackageVersion::new` returns `Ok` or `Err` without
panicking: whenever the `pre` group matched, the `pre_l` capture is present
(the `unwrap` cannot fail), and whenever the `release` capture contains `'.'`,
splitting it yields at least two pieces (the `split[0]`/`split[1]` indexing is
in bounds). -/
theorem C10_no_panic :
    (∀ s : List Char, isPanic (PackageVersion.new s) = false) ∧
      (∀ s m, findMatch s = some m →
        (m.pre = true → m.pre_l.isSome = true) ∧
        (∀ rel, m.release = some rel → rel.contains '.' = true →
          2 ≤ (splitOnChar '.' rel).length)) := by
  constructor
  · intro s
    rw [PackageVersion.new, validate_440_version]
    rcases hfm : findMatch s with _ | m
    · rfl
    · have hInv := findMatch_inv hfm
      show isPanic (buildVersion s m) = false
      cases hov : overflows m with
      | false =>
        obtain ⟨v, hbv⟩ := buildVersion_ok hInv hov
        rw [hbv]
        rfl
      | true =>
        rw [buildVersion_err hInv hov]
        rfl
  · intro s m hfm
    obtain ⟨_, ⟨rel, hm, hrel⟩, hpre, _⟩ := findMatch_inv hfm
    constructor
    · intro hp
      obtain ⟨kw, hkw, _⟩ := hpre hp
      rw [hkw]
      rfl
    · intro rel' hrel' hc
      rw [hm] at hrel'
      simp only [Option.some.injEq] at hrel'
      subst hrel'
      obtain ⟨ds, ps, hsplit, _, _, hcont⟩ := goodRelease_split hrel
      have hne : ps ≠ [] := hcont.mp hc
      rw [hsplit]
      rcases ps with _ | ⟨q, qs⟩
      · exact absurd rfl hne
      · simp [List.length]

/-- C10, witness: no-panic at a concrete input, and the split-length bound at
the parse of `"1.0.15"` (whose `release` capture contains dots). -/
theorem C10_no_panic_witness :
    isPanic (PackageVersion.new "1.0a1".toList) = false ∧
      2 ≤ (splitOnChar '.' "1.0.15".toList).length :=
  ⟨C10_no_panic.1 "1.0a1".toList,
   (C10_no_panic.2 "1.0.15".toList _ rfl).2 "1.0.15".toList rfl rfl⟩
